import Mathlib

/-!
Verification of the RMM device-memory suballocator core: the coalescing
free list (include/rmm/mr/device/detail/free_list.hpp), the Manager and
Logger state (include/rmm/detail/memory_manager.hpp), and the top-level
entry points (src/rmm.cpp).

Machine pointers and sizes are modelled as Nat: free-list blocks are
address ranges inside valid allocations, so the address arithmetic in
is_contiguous_before and merge never overflows.
-/

/-- Modelled from the spec: the Block value type of §3/§4.1, absent from
src/ (free_list.hpp only consumes it as the template parameter block_t).
A block is a base address plus a non-negative byte count; a
default-constructed block (null address, zero size) is the "not found"
sentinel, and blocks are ordered by address. -/
structure Block where
  ptr : Nat
  size : Nat
deriving DecidableEq

/-- Modelled from the spec: fits(size) holds iff size ≤ this.size. -/
def Block.fits (b : Block) (sz : Nat) : Bool :=
  decide (sz ≤ b.size)

/-- Modelled from the spec: two blocks are contiguous
(a.is_contiguous_before b) iff a.address + a.size == b.address. -/
def Block.is_contiguous_before (a b : Block) : Bool :=
  a.ptr + a.size == b.ptr

/-- Modelled from the spec: is_better_fit(size, other) holds iff this
block is a valid fit for size and is strictly smaller than other, or
other is not a valid fit while this is. -/
def Block.is_better_fit (b : Block) (sz : Nat) (o : Block) : Bool :=
  (b.fits sz && decide (b.size < o.size)) || (b.fits sz && !(o.fits sz))

/-- Modelled from the spec: merge produces a block spanning both inputs,
valid only when this block is contiguous before the other. -/
def Block.merge (a b : Block) : Block :=
  { ptr := a.ptr, size := a.size + b.size }

/-- Two address ranges overlap iff they share a byte:
max of the bases lies strictly below the min of the ends. -/
def Block.overlaps (a b : Block) : Prop :=
  max a.ptr b.ptr < min (a.ptr + a.size) (b.ptr + b.size)

instance (a b : Block) : Decidable (a.overlaps b) := by
  unfold Block.overlaps; infer_instance

/-- One byte x lies inside block b. -/
def memBlock (b : Block) (x : Nat) : Prop :=
  b.ptr ≤ x ∧ x < b.ptr + b.size

instance (b : Block) (x : Nat) : Decidable (memBlock b x) := by
  unfold memBlock; infer_instance

/-- Some entry of the registry covers byte x. -/
def covers (l : List Block) (x : Nat) : Prop :=
  ∃ e ∈ l, memBlock e x

/-- free_list.hpp, coalesced_emplace, scanning loop.  The C++ walks the
list with std::find_if for the first entry `next` with b < *next; while
the scan has passed at least one entry, `p` is the entry just before the
scan position (the candidate `previous = std::prev(next)`).  When the
position is found the four coalescing branches of lines 92-103 run; when
the scan exhausts the list, next == end so merge_next is false. -/
def emplace_go (b p : Block) : List Block → List Block
  | [] =>
    -- next == blocks.end(): merge_next is false
    if p.is_contiguous_before b then [p.merge b] else [p, b]
  | n :: rest =>
    if b.ptr < n.ptr then
      -- found next = n, previous = p
      if p.is_contiguous_before b then
        if b.is_contiguous_before n then
          -- three-way: previous->merge(b); previous->merge(*next); erase(next)
          ((p.merge b).merge n) :: rest
        else
          (p.merge b) :: n :: rest
      else
        if b.is_contiguous_before n then
          -- *next = b.merge(std::move(*next)); previous stays in place
          p :: (b.merge n) :: rest
        else
          p :: b :: n :: rest
    else
      p :: emplace_go b n rest

/-- free_list.hpp lines 72-104, coalesced_emplace.  An empty list gets a
direct append.  Otherwise, when the very first entry n already satisfies
b < n, the C++ sets previous = next (they alias), so merge_prev tests
n.is_contiguous_before b; in the (arithmetically unreachable) branch
where both merges fire, previous->merge(b) and previous->merge(*next)
mutate the single aliased node, which erase(next) then removes, leaving
rest.  Otherwise the scan proceeds with n as the candidate previous. -/
def coalesced_emplace (b : Block) : List Block → List Block
  | [] => [b]
  | n :: rest =>
    if b.ptr < n.ptr then
      if n.is_contiguous_before b then
        if b.is_contiguous_before n then rest
        else (n.merge b) :: rest
      else
        if b.is_contiguous_before n then (b.merge n) :: rest
        else b :: n :: rest
    else
      emplace_go b n rest

/-- free_list.hpp line 117: range insert applies insert (hence
coalesced_emplace) to each element in order, starting here from an
initially empty registry. -/
def insertAll (bs : List Block) : List Block :=
  bs.foldl (fun l b => coalesced_emplace b l) []

/-- free_list.hpp lines 142-145: the std::min_element loop under the
comparator lhs.is_better_fit(size, rhs).  Walks the remaining entries,
carrying the index and value of the best entry so far; a later entry
replaces the current best only when it compares strictly better. -/
def minIdxGo (sz : Nat) : Nat → Nat → Block → List Block → Nat × Block
  | _, bi, best, [] => (bi, best)
  | i, bi, best, y :: ys =>
    if y.is_better_fit sz best then minIdxGo sz (i + 1) i y ys
    else minIdxGo sz (i + 1) bi best ys

/-- free_list.hpp lines 139-155, best_fit: min_element over the list
under is_better_fit; if the winner exists (list non-empty) and fits the
request it is erased and returned, else the default block is returned
and the list is untouched.  Returns (found block, remaining list). -/
def best_fit (sz : Nat) (l : List Block) : Block × List Block :=
  match l with
  | [] => ({ ptr := 0, size := 0 }, l)
  | x :: xs =>
    let r := minIdxGo sz 1 0 x xs
    if r.2.fits sz then (r.2, l.eraseIdx r.1)
    else ({ ptr := 0, size := 0 }, l)

/-- The sortedness/coalescing invariant of the registry: each entry ends
strictly before the next entry begins. -/
def gapRel (p n : Block) : Prop :=
  p.ptr + p.size < n.ptr

/-- Ranking of blocks under is_better_fit: a fitting block ranks by its
size, a non-fitting block ranks above everything. -/
def fitKey (sz : Nat) (b : Block) : WithTop Nat :=
  if b.fits sz then (b.size : WithTop Nat) else ⊤

/-- memory_manager.hpp lines 81-85, Logger::MemEvent_t. -/
inductive MemEvent_t
  | Alloc
  | Realloc
  | Free
deriving DecidableEq

/-- memory_manager.hpp lines 105-118, Logger::MemoryEvent (the end time
point is named finish, end being reserved). -/
structure MemoryEvent where
  event : MemEvent_t
  deviceId : Int
  ptr : Nat
  size : Nat
  stream : Nat
  freeMem : Nat
  totalMem : Nat
  currentAllocations : Nat
  start : Nat
  finish : Nat
  filename : String
  line : Nat
deriving DecidableEq

/-- memory_manager.hpp lines 102-122, the Logger state: the live-pointer
set, the event records in insertion order, and the base time point. -/
structure Logger where
  current_allocations : List Nat
  events : List MemoryEvent
  base_time : Nat
deriving DecidableEq

/-- Modelled from the spec: Logger::clear (declared at
memory_manager.hpp line 98, body absent from src/) drops all records and
resets the live-pointer set. -/
def Logger.clear (lg : Logger) : Logger :=
  { lg with events := [], current_allocations := [] }

def MemEvent_t.label : MemEvent_t → String
  | MemEvent_t.Alloc => "0"
  | MemEvent_t.Realloc => "1"
  | MemEvent_t.Free => "2"

/-- One CSV data row of an event record. -/
def eventRow (e : MemoryEvent) : String :=
  e.event.label ++ "," ++ toString e.deviceId ++ "," ++ toString e.ptr ++ ","
    ++ toString e.size ++ "," ++ toString e.stream ++ "," ++ toString e.freeMem ++ ","
    ++ toString e.totalMem ++ "," ++ toString e.currentAllocations ++ ","
    ++ toString e.start ++ "," ++ toString e.finish ++ ","
    ++ e.filename ++ "," ++ toString e.line ++ "\n"

def csvHeader : String :=
  "event,device,ptr,size,stream,free,total,current,start,end,file,line\n"

/-- Modelled from the spec: Logger::to_csv (declared at
memory_manager.hpp line 101, body absent from src/) produces a
deterministic, header-first tabular rendering of all records in
insertion order. -/
def Logger.to_csv (lg : Logger) : String :=
  csvHeader ++ String.join (lg.events.map eventRow)

/-- Modelled from the spec: the configuration value object rmmOptions_t
(rmm_api.h is absent from src/): allocation mode, logging flag, initial
pool size — the three fields initialized at memory_manager.hpp line 221. -/
structure rmmOptions where
  allocation_mode : Nat
  enable_logging : Bool
  initial_pool_size : Nat
deriving DecidableEq

/-- Modelled from the spec: the allocation-mode constants (rmm_api.h is
absent from src/).  Direct CUDA allocation is the default, i.e. the
empty mask; pooled and managed-memory are distinct single-bit flags
combinable by bitwise or. -/
def CudaDefaultAllocation : Nat := 0

def PoolAllocation : Nat := 1

def CudaManagedMemory : Nat := 2

/-- memory_manager.hpp lines 220-231: the Manager state owned by the
singleton — the registered-stream set, the Logger, and the options. -/
structure Manager where
  registered_streams : List Nat
  logger : Logger
  options : rmmOptions
deriving DecidableEq

/-- memory_manager.hpp lines 175-177: pool allocation is enabled iff the
bitwise and of the configured mode with PoolAllocation is nonzero. -/
def usePoolAllocator (o : rmmOptions) : Bool :=
  (o.allocation_mode &&& PoolAllocation) != 0

/-- memory_manager.hpp lines 185-187: managed memory is enabled iff the
bitwise and of the configured mode with CudaManagedMemory is nonzero. -/
def useManagedMemory (o : rmmOptions) : Bool :=
  (o.allocation_mode &&& CudaManagedMemory) != 0

/-- memory_manager.hpp lines 195-197: the default allocator is enabled
iff CudaDefaultAllocation equals the configured mode (an equality
comparison of the whole mode word). -/
def useCudaDefaultAllocator (o : rmmOptions) : Bool :=
  CudaDefaultAllocation == o.allocation_mode

/-- Following the spec's words for the C5 comparison: a mode query
succeeds exactly when a bitmask comparison of the configured allocation
mode against the query's mode flag succeeds, i.e. their bitwise and is
nonzero. -/
def bitmaskQuery (flag mode : Nat) : Bool :=
  (mode &&& flag) != 0

/-- memory_manager.hpp lines 203-207, Manager::finalize: clear the
registration set and clear the logger, touching nothing else. -/
def Manager.finalize (m : Manager) : Manager :=
  { m with registered_streams := [], logger := m.logger.clear }

/-- The status codes of rmm_api.h that the embedded entry points return
(the IO status is named RMM_IO_STATUS here). -/
inductive rmmError
  | RMM_SUCCESS
  | RMM_IO_STATUS
  | RMM_CUDA_ERROR
deriving DecidableEq

/-- rmm.cpp lines 35-56, rmmInitialize, with the device-side effect made
explicit: the options are copied into the Manager only when the caller
passed a non-null pointer; then, if the (possibly just stored) options
enable the pool allocator, cnmemInit is invoked with the stored
initial_pool_size and the managed-memory flag.  The second component
records that cnmemInit call (pool size, managed flag), or none when the
pool path is not taken. -/
def rmmInit (opts : Option rmmOptions) (m : Manager) : Manager × Option (Nat × Bool) :=
  let m' := match opts with
    | some o => { m with options := o }
    | none => m
  if usePoolAllocator m'.options then
    (m', some (m'.options.initial_pool_size, useManagedMemory m'.options))
  else
    (m', none)

/-- A std::basic_ofstream as used by rmmWriteLog: its failbit and
whether failure exceptions are enabled for it.  Per the C++ iostreams
model, a failed operation sets failbit and raises failure only when the
exception mask has failbit enabled. -/
structure OfStream where
  failbit : Bool
  exceptions_failbit : Bool

/-- rmm.cpp line 124: std::ofstream csv; — a default-constructed stream
has an empty exception mask (goodbit), so no operation on it throws. -/
def ofstream_default : OfStream :=
  { failbit := false, exceptions_failbit := false }

/-- csv.open(filename): a failed open sets failbit; the pair's second
component tells whether the operation raised std::ofstream::failure,
which happens only when the exception mask covers failbit. -/
def OfStream.openFile (s : OfStream) (ok : Bool) : OfStream × Bool :=
  let s' := { s with failbit := s.failbit || !ok }
  (s', s'.failbit && s'.exceptions_failbit)

/-- Writing the serialized log into the stream: a failed or already
failed write sets failbit, and raises only under the exception mask. -/
def OfStream.writeAll (s : OfStream) (_text : String) (ok : Bool) : OfStream × Bool :=
  let s' := { s with failbit := s.failbit || !ok }
  (s', s'.failbit && s'.exceptions_failbit)

/-- rmm.cpp lines 120-132, rmmWriteLog: construct an ofstream, open the
named sink, serialize the log into it; if std::ofstream::failure was
raised anywhere in the try block, return the IO status, else success.
openOk and writeOk say whether the sink could be opened and written. -/
def rmmWriteLog (lg : Logger) (openOk writeOk : Bool) : rmmError :=
  let csv := ofstream_default
  let afterOpen := csv.openFile openOk
  if afterOpen.2 then rmmError.RMM_IO_STATUS
  else
    let afterWrite := afterOpen.1.writeAll (Logger.to_csv lg) writeOk
    if afterWrite.2 then rmmError.RMM_IO_STATUS
    else rmmError.RMM_SUCCESS

/-- rmm.cpp lines 135-140, rmmLogSize: serialize the log into a string
stream and return the size of the rendered text. -/
def rmmLogSize (lg : Logger) : Nat :=
  (Logger.to_csv lg).length

/-- std::string::copy(dest, count, 0): copies rlen = min(count, size())
characters into dest and does not append a null character; bytes of
dest past the copied prefix keep their previous contents. -/
def stringCopy (dest : List Char) (count : Nat) (s : String) : List Char :=
  let rlen := min count s.length
  s.toList.take rlen ++ dest.drop rlen

/-- rmm.cpp lines 143-155, rmmGetLog: serialize the log into a string
stream, then copy min(buffer_size, text size) characters of it into the
caller's buffer; the string-stream path raises nothing, so the result
status is success.  Returns the status and the buffer contents after
the call. -/
def rmmGetLog (lg : Logger) (buffer : List Char) (buffer_size : Nat) : rmmError × List Char :=
  let csv := Logger.to_csv lg
  (rmmError.RMM_SUCCESS, stringCopy buffer (min buffer_size csv.length) csv)

/-! ### Helper lemmas about blocks, coverage and the sortedness invariant -/

theorem contig_iff (a b : Block) : a.is_contiguous_before b = true ↔ a.ptr + a.size = b.ptr := by
  simp [Block.is_contiguous_before]

theorem overlaps_iff (a b : Block) :
    a.overlaps b ↔ ∃ x, memBlock a x ∧ memBlock b x := by
  unfold Block.overlaps memBlock
  constructor
  · intro h
    refine ⟨max a.ptr b.ptr, ⟨Nat.le_max_left _ _, ?_⟩, ⟨Nat.le_max_right _ _, ?_⟩⟩
    · exact lt_of_lt_of_le h (Nat.min_le_left _ _)
    · exact lt_of_lt_of_le h (Nat.min_le_right _ _)
  · rintro ⟨x, ⟨ha1, ha2⟩, hb1, hb2⟩
    calc max a.ptr b.ptr ≤ x := Nat.max_le.mpr ⟨ha1, hb1⟩
      _ < min (a.ptr + a.size) (b.ptr + b.size) := Nat.lt_min.mpr ⟨ha2, hb2⟩

theorem not_overlaps_sides {a b : Block} (h : ¬ a.overlaps b)
    (ha : 0 < a.size) (hb : 0 < b.size) :
    a.ptr + a.size ≤ b.ptr ∨ b.ptr + b.size ≤ a.ptr := by
  unfold Block.overlaps at h
  omega

theorem mem_merge {a b : Block} (h : a.ptr + a.size = b.ptr) (x : Nat) :
    memBlock (a.merge b) x ↔ memBlock a x ∨ memBlock b x := by
  unfold Block.merge memBlock
  dsimp only
  omega

theorem covers_nil (x : Nat) : ¬ covers [] x := by
  simp [covers]

theorem covers_cons {e : Block} {l : List Block} {x : Nat} :
    covers (e :: l) x ↔ memBlock e x ∨ covers l x := by
  simp [covers]

theorem chain_gap_head (l : List Block) :
    ∀ a : Block, List.Chain' gapRel (a :: l) → ∀ b ∈ l, gapRel a b := by
  induction l with
  | nil => intro a _ b hb; cases hb
  | cons c t ih =>
    intro a h b hb
    rw [List.chain'_cons] at h
    rcases List.mem_cons.mp hb with rfl | hb'
    · exact h.1
    · have hcb := ih c h.2 b hb'
      have hac := h.1
      unfold gapRel at *
      omega

theorem chain_gap_pairwise (l : List Block) (h : List.Chain' gapRel l) :
    List.Pairwise gapRel l := by
  induction l with
  | nil => exact List.Pairwise.nil
  | cons a t ih =>
    exact List.Pairwise.cons (chain_gap_head t a h) (ih h.tail)

theorem gap_pairwise_noncontig (l : List Block) (hch : List.Chain' gapRel l) :
    List.Pairwise
      (fun a c => a.is_contiguous_before c = false ∧ c.is_contiguous_before a = false) l := by
  refine (chain_gap_pairwise l hch).imp ?_
  intro a c h
  unfold gapRel at h
  constructor <;> simp only [Block.is_contiguous_before, beq_eq_false_iff_ne, ne_eq] <;> omega

theorem chain_head_congr {m n : Block} {l : List Block}
    (h : List.Chain' gapRel (n :: l)) (hend : m.ptr + m.size ≤ n.ptr + n.size) :
    List.Chain' gapRel (m :: l) := by
  rw [List.chain'_cons'] at h ⊢
  refine ⟨fun y hy => ?_, h.2⟩
  have := h.1 y hy
  unfold gapRel at *
  omega

/-! ### Helper lemmas for best-fit selection -/

theorem fitKey_lt_iff (sz : Nat) (b o : Block) :
    b.is_better_fit sz o = true ↔ fitKey sz b < fitKey sz o := by
  unfold Block.is_better_fit fitKey
  cases hb : b.fits sz <;> cases ho : o.fits sz <;>
    simp [hb, ho, WithTop.coe_lt_top, WithTop.coe_lt_coe, Nat.cast_lt]

theorem fitKey_le_of_not_better (sz : Nat) {b o : Block}
    (h : ¬ b.is_better_fit sz o = true) : fitKey sz o ≤ fitKey sz b := by
  by_contra hlt
  exact h ((fitKey_lt_iff sz b o).mpr (lt_of_not_le hlt))

theorem minIdxGo_spec (sz : Nat) :
    ∀ (ys : List Block) (i bi : Nat) (best : Block),
      fitKey sz (minIdxGo sz i bi best ys).2 ≤ fitKey sz best ∧
      (∀ y ∈ ys, fitKey sz (minIdxGo sz i bi best ys).2 ≤ fitKey sz y) ∧
      (((minIdxGo sz i bi best ys).1 = bi ∧ (minIdxGo sz i bi best ys).2 = best) ∨
        ∃ j, ys[j]? = some (minIdxGo sz i bi best ys).2 ∧ (minIdxGo sz i bi best ys).1 = i + j) := by
  intro ys
  induction ys with
  | nil =>
    intro i bi best
    refine ⟨le_refl _, by simp, Or.inl ⟨rfl, rfl⟩⟩
  | cons y t ih =>
    intro i bi best
    by_cases hc : y.is_better_fit sz best = true
    · have hred : minIdxGo sz i bi best (y :: t) = minIdxGo sz (i + 1) i y t := by
        simp [minIdxGo, hc]
      have hlt : fitKey sz y < fitKey sz best := (fitKey_lt_iff sz y best).mp hc
      obtain ⟨h1, h2, h3⟩ := ih (i + 1) i y
      rw [hred]
      refine ⟨le_trans h1 (le_of_lt hlt), ?_, ?_⟩
      · intro z hz
        rcases List.mem_cons.mp hz with rfl | hz'
        · exact h1
        · exact h2 z hz'
      · rcases h3 with ⟨hb1, hb2⟩ | ⟨j, hj, hi⟩
        · exact Or.inr ⟨0, by simp [hb2], by omega⟩
        · exact Or.inr ⟨j + 1, by simpa using hj, by omega⟩
    · have hred : minIdxGo sz i bi best (y :: t) = minIdxGo sz (i + 1) bi best t := by
        simp [minIdxGo, hc]
      have hle : fitKey sz best ≤ fitKey sz y := fitKey_le_of_not_better sz hc
      obtain ⟨h1, h2, h3⟩ := ih (i + 1) bi best
      rw [hred]
      refine ⟨h1, ?_, ?_⟩
      · intro z hz
        rcases List.mem_cons.mp hz with rfl | hz'
        · exact le_trans h1 hle
        · exact h2 z hz'
      · rcases h3 with ⟨hb1, hb2⟩ | ⟨j, hj, hi⟩
        · exact Or.inl ⟨hb1, hb2⟩
        · exact Or.inr ⟨j + 1, by simpa using hj, by omega⟩

theorem get_erase_decomp :
    ∀ (l : List Block) (i : Nat) (a : Block), l[i]? = some a →
      ∃ l1 l2, l = l1 ++ a :: l2 ∧ l.eraseIdx i = l1 ++ l2 := by
  intro l
  induction l with
  | nil => intro i a h; simp at h
  | cons x t ih =>
    intro i a h
    cases i with
    | zero =>
      simp only [List.getElem?_cons_zero, Option.some.injEq] at h
      exact ⟨[], t, by simp [h], by simp [List.eraseIdx]⟩
    | succ j =>
      simp only [List.getElem?_cons_succ] at h
      obtain ⟨l1, l2, he, hr⟩ := ih j a h
      exact ⟨x :: l1, l2, by simp [he], by simp [List.eraseIdx, hr]⟩

/-! ### The coalescing invariant of coalesced_emplace -/

theorem emplace_go_spec (b : Block) :
    ∀ (ys : List Block) (p : Block),
      0 < b.size → 0 < p.size → (∀ e ∈ ys, 0 < e.size) →
      List.Chain' gapRel (p :: ys) →
      p.ptr ≤ b.ptr →
      ¬ b.overlaps p → (∀ e ∈ ys, ¬ b.overlaps e) →
      (∀ e ∈ emplace_go b p ys, 0 < e.size) ∧
      List.Chain' gapRel (emplace_go b p ys) ∧
      (∃ s t, emplace_go b p ys = { ptr := p.ptr, size := s } :: t) ∧
      (∀ x, covers (emplace_go b p ys) x ↔ memBlock b x ∨ covers (p :: ys) x) := by
  intro ys
  induction ys with
  | nil =>
    intro p hb hp _ _ hle hov _
    have hside := not_overlaps_sides hov hb hp
    by_cases hmp : p.is_contiguous_before b = true
    · have hcp : p.ptr + p.size = b.ptr := (contig_iff p b).mp hmp
      have hred : emplace_go b p [] = [p.merge b] := by
        simp only [emplace_go]; rw [if_pos hmp]
      rw [hred]
      refine ⟨?_, List.chain'_singleton _, ⟨p.size + b.size, [], rfl⟩, ?_⟩
      · intro e he
        rcases List.mem_cons.mp he with rfl | he'
        · show 0 < p.size + b.size; omega
        · cases he'
      · intro x
        rw [covers_cons, covers_cons]
        simp only [covers_nil _, or_false]
        rw [mem_merge hcp x]
        exact or_comm
    · have hncp : p.ptr + p.size ≠ b.ptr := fun hc => hmp ((contig_iff p b).mpr hc)
      have hgap : gapRel p b := by unfold gapRel; omega
      have hred : emplace_go b p [] = [p, b] := by
        simp only [emplace_go]; rw [if_neg hmp]
      rw [hred]
      refine ⟨?_, List.chain'_cons.mpr ⟨hgap, List.chain'_singleton _⟩,
        ⟨p.size, [b], rfl⟩, ?_⟩
      · intro e he
        rcases List.mem_cons.mp he with rfl | he'
        · exact hp
        · rcases List.mem_cons.mp he' with rfl | h'
          · exact hb
          · cases h'
      · intro x
        rw [covers_cons, covers_cons, covers_cons]
        simp only [covers_nil _, or_false]
        exact or_comm
  | cons n rest ih =>
    intro p hb hp hys hch hle hov hovs
    obtain ⟨hpn, hch2⟩ := List.chain'_cons.mp hch
    have hpn' : p.ptr + p.size < n.ptr := hpn
    have hn : 0 < n.size := hys n (List.mem_cons_self n rest)
    have hovn : ¬ b.overlaps n := hovs n (List.mem_cons_self n rest)
    by_cases hlt : b.ptr < n.ptr
    · have hsp := not_overlaps_sides hov hb hp
      have hsn := not_overlaps_sides hovn hb hn
      have hpb : p.ptr + p.size ≤ b.ptr := by omega
      have hbn : b.ptr + b.size ≤ n.ptr := by omega
      by_cases hmp : p.is_contiguous_before b = true
      · have hcp : p.ptr + p.size = b.ptr := (contig_iff p b).mp hmp
        by_cases hmn : b.is_contiguous_before n = true
        · have hcn : b.ptr + b.size = n.ptr := (contig_iff b n).mp hmn
          have hred : emplace_go b p (n :: rest) = ((p.merge b).merge n) :: rest := by
            simp only [emplace_go]; rw [if_pos hlt, if_pos hmp, if_pos hmn]
          rw [hred]
          have hmpb : (p.merge b).ptr + (p.merge b).size = n.ptr := by
            show p.ptr + (p.size + b.size) = n.ptr; omega
          refine ⟨?_, ?_, ⟨p.size + b.size + n.size, rest, rfl⟩, ?_⟩
          · intro e he
            rcases List.mem_cons.mp he with rfl | he'
            · show 0 < p.size + b.size + n.size; omega
            · exact hys e (List.mem_cons_of_mem n he')
          · refine chain_head_congr hch2 ?_
            show p.ptr + (p.size + b.size + n.size) ≤ n.ptr + n.size; omega
          · intro x
            simp only [covers_cons]
            rw [mem_merge hmpb x, mem_merge hcp x]
            rw [or_assoc, or_assoc]
            exact or_left_comm
        · have hncn : b.ptr + b.size ≠ n.ptr := fun hc => hmn ((contig_iff b n).mpr hc)
          have hred : emplace_go b p (n :: rest) = (p.merge b) :: n :: rest := by
            simp only [emplace_go]; rw [if_pos hlt, if_pos hmp, if_neg hmn]
          rw [hred]
          have hgmn : gapRel (p.merge b) n := by
            show p.ptr + (p.size + b.size) < n.ptr; omega
          refine ⟨?_, List.chain'_cons.mpr ⟨hgmn, hch2⟩,
            ⟨p.size + b.size, n :: rest, rfl⟩, ?_⟩
          · intro e he
            rcases List.mem_cons.mp he with rfl | he'
            · show 0 < p.size + b.size; omega
            · exact hys e he'
          · intro x
            simp only [covers_cons]
            rw [mem_merge hcp x]
            rw [or_assoc]
            exact or_left_comm
      · have hncp : p.ptr + p.size ≠ b.ptr := fun hc => hmp ((contig_iff p b).mpr hc)
        have hgpb : gapRel p b := by unfold gapRel; omega
        by_cases hmn : b.is_contiguous_before n = true
        · have hcn : b.ptr + b.size = n.ptr := (contig_iff b n).mp hmn
          have hred : emplace_go b p (n :: rest) = p :: (b.merge n) :: rest := by
            simp only [emplace_go]; rw [if_pos hlt, if_neg hmp, if_pos hmn]
          rw [hred]
          have hgp : gapRel p (b.merge n) := hgpb
          have hchm : List.Chain' gapRel ((b.merge n) :: rest) := by
            refine chain_head_congr hch2 ?_
            show b.ptr + (b.size + n.size) ≤ n.ptr + n.size; omega
          refine ⟨?_, List.chain'_cons.mpr ⟨hgp, hchm⟩, ⟨p.size, (b.merge n) :: rest, rfl⟩, ?_⟩
          · intro e he
            rcases List.mem_cons.mp he with rfl | he'
            · exact hp
            · rcases List.mem_cons.mp he' with rfl | he''
              · show 0 < b.size + n.size; omega
              · exact hys e (List.mem_cons_of_mem n he'')
          · intro x
            simp only [covers_cons]
            rw [mem_merge hcn x]
            rw [or_assoc]
            exact or_left_comm
        · have hncn : b.ptr + b.size ≠ n.ptr := fun hc => hmn ((contig_iff b n).mpr hc)
          have hred : emplace_go b p (n :: rest) = p :: b :: n :: rest := by
            simp only [emplace_go]; rw [if_pos hlt, if_neg hmp, if_neg hmn]
          rw [hred]
          have hgbn : gapRel b n := by unfold gapRel; omega
          refine ⟨?_, List.chain'_cons.mpr ⟨hgpb, List.chain'_cons.mpr ⟨hgbn, hch2⟩⟩,
            ⟨p.size, b :: n :: rest, rfl⟩, ?_⟩
          · intro e he
            rcases List.mem_cons.mp he with rfl | he'
            · exact hp
            · rcases List.mem_cons.mp he' with rfl | he''
              · exact hb
              · exact hys e he''
          · intro x
            simp only [covers_cons]
            exact or_left_comm
    · have hred : emplace_go b p (n :: rest) = p :: emplace_go b n rest := by
        simp only [emplace_go]; rw [if_neg hlt]
      rw [hred]
      obtain ⟨ihpos, ihch, ⟨s, t, iheq⟩, ihcov⟩ :=
        ih n hb hn (fun e he => hys e (List.mem_cons_of_mem n he)) hch2
          (Nat.le_of_not_lt hlt) hovn (fun e he => hovs e (List.mem_cons_of_mem n he))
      refine ⟨?_, ?_, ⟨p.size, emplace_go b n rest, rfl⟩, ?_⟩
      · intro e he
        rcases List.mem_cons.mp he with rfl | he'
        · exact hp
        · exact ihpos e he'
      · rw [iheq]
        refine List.chain'_cons.mpr ⟨?_, iheq ▸ ihch⟩
        exact hpn'
      · intro x
        simp only [covers_cons]
        rw [ihcov x]
        simp only [covers_cons]
        exact or_left_comm

theorem coalesced_emplace_spec (b : Block) (l : List Block)
    (hb : 0 < b.size) (hl : ∀ e ∈ l, 0 < e.size) (hch : List.Chain' gapRel l)
    (hov : ∀ e ∈ l, ¬ b.overlaps e) :
    (∀ e ∈ coalesced_emplace b l, 0 < e.size) ∧
    List.Chain' gapRel (coalesced_emplace b l) ∧
    (∀ x, covers (coalesced_emplace b l) x ↔ memBlock b x ∨ covers l x) := by
  match l with
  | [] =>
    refine ⟨?_, List.chain'_singleton _, ?_⟩
    · intro e he
      rcases List.mem_cons.mp he with rfl | h'
      · exact hb
      · cases h'
    · intro x
      rw [show coalesced_emplace b [] = [b] from rfl, covers_cons]
  | n :: rest =>
    have hn : 0 < n.size := hl n (List.mem_cons_self n rest)
    have hovn : ¬ b.overlaps n := hov n (List.mem_cons_self n rest)
    by_cases hlt : b.ptr < n.ptr
    · have hsn := not_overlaps_sides hovn hb hn
      have hbn : b.ptr + b.size ≤ n.ptr := by omega
      have hmp : ¬ n.is_contiguous_before b = true := by
        intro hc
        have := (contig_iff n b).mp hc
        omega
      by_cases hmn : b.is_contiguous_before n = true
      · have hcn : b.ptr + b.size = n.ptr := (contig_iff b n).mp hmn
        have hred : coalesced_emplace b (n :: rest) = (b.merge n) :: rest := by
          simp only [coalesced_emplace]; rw [if_pos hlt, if_neg hmp, if_pos hmn]
        rw [hred]
        refine ⟨?_, ?_, ?_⟩
        · intro e he
          rcases List.mem_cons.mp he with rfl | he'
          · show 0 < b.size + n.size; omega
          · exact hl e (List.mem_cons_of_mem n he')
        · refine chain_head_congr hch ?_
          show b.ptr + (b.size + n.size) ≤ n.ptr + n.size; omega
        · intro x
          simp only [covers_cons]
          rw [mem_merge hcn x]
          exact or_assoc
      · have hncn : b.ptr + b.size ≠ n.ptr := fun hc => hmn ((contig_iff b n).mpr hc)
        have hred : coalesced_emplace b (n :: rest) = b :: n :: rest := by
          simp only [coalesced_emplace]; rw [if_pos hlt, if_neg hmp, if_neg hmn]
        rw [hred]
        have hgbn : gapRel b n := by unfold gapRel; omega
        refine ⟨?_, List.chain'_cons.mpr ⟨hgbn, hch⟩, ?_⟩
        · intro e he
          rcases List.mem_cons.mp he with rfl | he'
          · exact hb
          · exact hl e he'
        · intro x
          simp only [covers_cons]
    · have hred : coalesced_emplace b (n :: rest) = emplace_go b n rest := by
        simp only [coalesced_emplace]; rw [if_neg hlt]
      rw [hred]
      obtain ⟨hpos, hchain, _, hcov⟩ :=
        emplace_go_spec b rest n hb hn (fun e he => hl e (List.mem_cons_of_mem n he))
          hch (Nat.le_of_not_lt hlt) hovn (fun e he => hov e (List.mem_cons_of_mem n he))
      exact ⟨hpos, hchain, hcov⟩

theorem insertAll_go_spec :
    ∀ (bs acc : List Block),
      (∀ e ∈ acc, 0 < e.size) → List.Chain' gapRel acc →
      (∀ e ∈ bs, 0 < e.size) →
      List.Pairwise (fun a c => ¬ a.overlaps c) bs →
      (∀ a ∈ bs, ∀ e ∈ acc, ¬ a.overlaps e) →
      (∀ e ∈ bs.foldl (fun l b => coalesced_emplace b l) acc, 0 < e.size) ∧
      List.Chain' gapRel (bs.foldl (fun l b => coalesced_emplace b l) acc) ∧
      (∀ x, covers (bs.foldl (fun l b => coalesced_emplace b l) acc) x ↔
        covers acc x ∨ ∃ a ∈ bs, memBlock a x) := by
  intro bs
  induction bs with
  | nil =>
    intro acc h1 h2 _ _ _
    refine ⟨h1, h2, fun x => ?_⟩
    simp
  | cons a bs ih =>
    intro acc hacc hch hbs hpw hcross
    have ha : 0 < a.size := hbs a (List.mem_cons_self a bs)
    obtain ⟨spos, sch, scov⟩ :=
      coalesced_emplace_spec a acc ha hacc hch (hcross a (List.mem_cons_self a bs))
    have hpw' : List.Pairwise (fun a c => ¬ a.overlaps c) bs := (List.pairwise_cons.mp hpw).2
    have hpwa : ∀ a' ∈ bs, ¬ a.overlaps a' := (List.pairwise_cons.mp hpw).1
    have hcross' : ∀ a' ∈ bs, ∀ e ∈ coalesced_emplace a acc, ¬ a'.overlaps e := by
      intro a' ha' e he hoe
      obtain ⟨x, hxa', hxe⟩ := (overlaps_iff a' e).mp hoe
      have hcv : covers (coalesced_emplace a acc) x := ⟨e, he, hxe⟩
      rcases (scov x).mp hcv with hxa | hxacc
      · exact hpwa a' ha' ((overlaps_iff a a').mpr ⟨x, hxa, hxa'⟩)
      · obtain ⟨e0, he0, hxe0⟩ := hxacc
        exact hcross a' (List.mem_cons_of_mem a ha') e0 he0
          ((overlaps_iff a' e0).mpr ⟨x, hxa', hxe0⟩)
    obtain ⟨fpos, fch, fcov⟩ :=
      ih (coalesced_emplace a acc) spos sch
        (fun e he => hbs e (List.mem_cons_of_mem a he)) hpw' hcross'
    refine ⟨?_, ?_, ?_⟩
    · simpa using fpos
    · simpa using fch
    · intro x
      have hx := fcov x
      rw [scov x] at hx
      simp only [List.foldl_cons]
      rw [hx]
      simp only [List.mem_cons, exists_eq_or_imp]
      constructor
      · rintro ((h | h) | h)
        exacts [Or.inr (Or.inl h), Or.inl h, Or.inr (Or.inr h)]
      · rintro (h | h | h)
        exacts [Or.inl (Or.inr h), Or.inl (Or.inl h), Or.inr h]

theorem insertAll_spec (bs : List Block)
    (hpos : ∀ e ∈ bs, 0 < e.size)
    (hdisj : List.Pairwise (fun a c => ¬ a.overlaps c) bs) :
    (∀ e ∈ insertAll bs, 0 < e.size) ∧
    List.Chain' gapRel (insertAll bs) ∧
    (∀ x, covers (insertAll bs) x ↔ ∃ a ∈ bs, memBlock a x) := by
  obtain ⟨h1, h2, h3⟩ :=
    insertAll_go_spec bs [] (by intro e he; cases he) List.chain'_nil hpos hdisj
      (by intro a _ e he; cases he)
  refine ⟨h1, h2, fun x => ?_⟩
  rw [insertAll, h3 x]
  simp [covers]

theorem emplace_go_three_way (b p n : Block) (l2 : List Block)
    (hp : ¬ b.ptr < p.ptr) (hn : b.ptr < n.ptr)
    (hcp : p.is_contiguous_before b = true) (hcn : b.is_contiguous_before n = true) :
    ∀ (l1 : List Block) (q : Block), ¬ b.ptr < q.ptr → (∀ e ∈ l1, ¬ b.ptr < e.ptr) →
      emplace_go b q (l1 ++ p :: n :: l2) = q :: (l1 ++ ((p.merge b).merge n) :: l2) := by
  intro l1
  induction l1 with
  | nil =>
    intro q _ _
    show emplace_go b q (p :: n :: l2) = q :: (((p.merge b).merge n) :: l2)
    have h1 : emplace_go b q (p :: n :: l2) = q :: emplace_go b p (n :: l2) := by
      simp only [emplace_go]; rw [if_neg hp]
    have h2 : emplace_go b p (n :: l2) = ((p.merge b).merge n) :: l2 := by
      simp only [emplace_go]; rw [if_pos hn, if_pos hcp, if_pos hcn]
    rw [h1, h2]
  | cons e l1 ih =>
    intro q _ hall
    have he : ¬ b.ptr < e.ptr := hall e (List.mem_cons_self e l1)
    have h1 : emplace_go b q ((e :: l1) ++ p :: n :: l2)
        = q :: emplace_go b e (l1 ++ p :: n :: l2) := by
      simp only [List.cons_append, emplace_go]; rw [if_neg he]; rfl
    rw [h1, ih e he (fun x hx => hall x (List.mem_cons_of_mem e hx))]
    simp

/-! ### Claim C1 -/

/-- C1 counterexample: the claim quantifies over all sequences of
mutually non-overlapping blocks, and the spec allows blocks of size
zero.  The blocks [3,8), [5,5) (empty) and [8,10) are pairwise
non-overlapping, yet inserting them in this order into an empty registry
leaves three entries, of which the first, [3,8), satisfies
is_contiguous_before with the third, [8,10): the empty block sits
between them in address order and shields them from coalescing. -/
theorem coalesce_claim_counterexample :
    List.Pairwise (fun a c => ¬ Block.overlaps a c)
      [Block.mk 3 5, Block.mk 5 0, Block.mk 8 2] ∧
    insertAll [Block.mk 3 5, Block.mk 5 0, Block.mk 8 2]
      = [Block.mk 3 5, Block.mk 5 0, Block.mk 8 2] ∧
    (Block.mk 3 5).is_contiguous_before (Block.mk 8 2) = true := by
  refine ⟨?_, by decide, by decide⟩
  decide

/-- C1 (amended with positive sizes): after inserting any sequence of
mutually non-overlapping blocks of positive size into an initially empty
registry, no two registry entries satisfy is_contiguous_before (in
either direction); inserting [0,10) and [10,20) in either order leaves
exactly the single entry [0,20); and whenever the scan finds a real
predecessor p and successor n that are both contiguous with the new
block b, all three are merged into the predecessor entry and the
now-redundant successor entry is erased. -/
theorem coalesce_no_contiguous_entries :
    (∀ bs : List Block, (∀ e ∈ bs, 0 < e.size) →
      List.Pairwise (fun a c => ¬ a.overlaps c) bs →
      List.Pairwise
        (fun a c => a.is_contiguous_before c = false ∧ c.is_contiguous_before a = false)
        (insertAll bs)) ∧
    insertAll [Block.mk 0 10, Block.mk 10 10] = [Block.mk 0 20] ∧
    insertAll [Block.mk 10 10, Block.mk 0 10] = [Block.mk 0 20] ∧
    (∀ (l1 l2 : List Block) (p b n : Block),
      (∀ e ∈ l1 ++ [p], ¬ b.ptr < e.ptr) → b.ptr < n.ptr →
      p.is_contiguous_before b = true → b.is_contiguous_before n = true →
      coalesced_emplace b (l1 ++ p :: n :: l2) = l1 ++ ((p.merge b).merge n) :: l2) := by
  refine ⟨?_, by decide, by decide, ?_⟩
  · intro bs hpos hdisj
    obtain ⟨_, hch, _⟩ := insertAll_spec bs hpos hdisj
    exact gap_pairwise_noncontig _ hch
  · intro l1 l2 p b n hle hn hcp hcn
    have hp : ¬ b.ptr < p.ptr := hle p (by simp)
    match l1 with
    | [] =>
      show coalesced_emplace b (p :: n :: l2) = ((p.merge b).merge n) :: l2
      have h1 : coalesced_emplace b (p :: n :: l2) = emplace_go b p (n :: l2) := by
        simp only [coalesced_emplace]; rw [if_neg hp]
      have h2 : emplace_go b p (n :: l2) = ((p.merge b).merge n) :: l2 := by
        simp only [emplace_go]; rw [if_pos hn, if_pos hcp, if_pos hcn]
      rw [h1, h2]
    | q :: l1' =>
      have hq : ¬ b.ptr < q.ptr := hle q (by simp)
      have hall : ∀ e ∈ l1', ¬ b.ptr < e.ptr := by
        intro e he; exact hle e (by simp [he])
      have h1 : coalesced_emplace b ((q :: l1') ++ p :: n :: l2)
          = emplace_go b q (l1' ++ p :: n :: l2) := by
        simp only [List.cons_append, coalesced_emplace]; rw [if_neg hq]
      rw [h1, emplace_go_three_way b p n l2 hp hn hcp hcn l1' q hq hall]
      simp

/-- C1 witness: the amended theorem applied to the concrete
non-overlapping positive-size sequence [0,10), [25,5). -/
theorem coalesce_no_contiguous_entries_witness :
    List.Pairwise
      (fun a c => a.is_contiguous_before c = false ∧ c.is_contiguous_before a = false)
      (insertAll [Block.mk 0 10, Block.mk 25 5]) :=
  coalesce_no_contiguous_entries.1 [Block.mk 0 10, Block.mk 25 5] (by decide) (by decide)

/-! ### Claim C8 -/

/-- C8: inserting a block whose address is strictly below the address of
every entry of a non-empty registry of positive-size blocks never takes
the predecessor-coalescing branch (there the computed previous aliases
next): the result either merges the new block into the old first entry,
when the new block is contiguous before it, or prepends the new block as
a standalone first entry. -/
theorem front_insert_no_prev_merge (b n : Block) (rest : List Block)
    (hpos : ∀ e ∈ n :: rest, 0 < e.size)
    (hlt : ∀ e ∈ n :: rest, b.ptr < e.ptr) :
    coalesced_emplace b (n :: rest) =
      if b.is_contiguous_before n = true then (b.merge n) :: rest
      else b :: n :: rest := by
  have h1 : b.ptr < n.ptr := hlt n (List.mem_cons_self n rest)
  have hmp : ¬ n.is_contiguous_before b = true := by
    intro hc
    have := (contig_iff n b).mp hc
    omega
  by_cases hmn : b.is_contiguous_before n = true
  · rw [if_pos hmn]
    simp only [coalesced_emplace]; rw [if_pos h1, if_neg hmp, if_pos hmn]
  · rw [if_neg hmn]
    simp only [coalesced_emplace]; rw [if_pos h1, if_neg hmp, if_neg hmn]

/-- C8 witness: inserting [0,5) below the sole entry [10,5). -/
theorem front_insert_no_prev_merge_witness :
    coalesced_emplace (Block.mk 0 5) [Block.mk 10 5] =
      if (Block.mk 0 5).is_contiguous_before (Block.mk 10 5) = true
      then ((Block.mk 0 5).merge (Block.mk 10 5)) :: []
      else Block.mk 0 5 :: Block.mk 10 5 :: [] :=
  front_insert_no_prev_merge (Block.mk 0 5) (Block.mk 10 5) [] (by decide) (by decide)

/-! ### Claims C2 and C3 -/

/-- C2: whenever some registry entry fits the requested size, best_fit
returns an entry of the registry that fits the request and is no larger
than any other fitting entry (true best-fit), and the returned entry is
removed from the registry — the remaining list is the registry with
exactly that one entry taken out. -/
theorem best_fit_selects_smallest (l : List Block) (sz : Nat)
    (h : ∃ e ∈ l, e.fits sz = true) :
    (best_fit sz l).1.fits sz = true ∧
    (best_fit sz l).1 ∈ l ∧
    (∀ e ∈ l, e.fits sz = true → (best_fit sz l).1.size ≤ e.size) ∧
    ∃ l1 l2, l = l1 ++ (best_fit sz l).1 :: l2 ∧ (best_fit sz l).2 = l1 ++ l2 := by
  match l with
  | [] =>
    obtain ⟨e, he, _⟩ := h
    cases he
  | x :: xs =>
    obtain ⟨h1, h2, h3⟩ := minIdxGo_spec sz xs 1 0 x
    have hmin : ∀ e ∈ x :: xs, fitKey sz (minIdxGo sz 1 0 x xs).2 ≤ fitKey sz e := by
      intro e he
      rcases List.mem_cons.mp he with rfl | he'
      · exact h1
      · exact h2 e he'
    obtain ⟨e, he, hef⟩ := h
    have hkey_e : fitKey sz e = (e.size : WithTop Nat) := by
      unfold fitKey; rw [if_pos hef]
    have hlt_top : fitKey sz (minIdxGo sz 1 0 x xs).2 < ⊤ :=
      lt_of_le_of_lt (hmin e he) (hkey_e ▸ WithTop.coe_lt_top e.size)
    have hfits : (minIdxGo sz 1 0 x xs).2.fits sz = true := by
      by_cases hf : (minIdxGo sz 1 0 x xs).2.fits sz = true
      · exact hf
      · exfalso
        have : fitKey sz (minIdxGo sz 1 0 x xs).2 = ⊤ := by
          unfold fitKey; rw [if_neg hf]
        rw [this] at hlt_top
        exact lt_irrefl _ hlt_top
    have hbf : best_fit sz (x :: xs)
        = ((minIdxGo sz 1 0 x xs).2, (x :: xs).eraseIdx (minIdxGo sz 1 0 x xs).1) := by
      simp only [best_fit]
      rw [if_pos hfits]
    have hidx : (x :: xs)[(minIdxGo sz 1 0 x xs).1]? = some (minIdxGo sz 1 0 x xs).2 := by
      rcases h3 with ⟨hb1, hb2⟩ | ⟨j, hj, hi⟩
      · rw [hb1, hb2]
        simp
      · rw [hi, show 1 + j = j + 1 from by omega]
        simpa using hj
    obtain ⟨l1, l2, hdec, hrem⟩ := get_erase_decomp (x :: xs) _ _ hidx
    rw [hbf]
    refine ⟨hfits, ?_, ?_, l1, l2, hdec, hrem⟩
    · rw [hdec]
      exact List.mem_append_right l1 (List.mem_cons_self _ _)
    · intro e' he' hef'
      have hk := hmin e' he'
      have hkey_r : fitKey sz (minIdxGo sz 1 0 x xs).2
          = ((minIdxGo sz 1 0 x xs).2.size : WithTop Nat) := by
        unfold fitKey; rw [if_pos hfits]
      have hkey_e' : fitKey sz e' = (e'.size : WithTop Nat) := by
        unfold fitKey; rw [if_pos hef']
      rw [hkey_r, hkey_e'] at hk
      exact_mod_cast hk

/-- C2 witness: free blocks of sizes 100, 50, 200 and a request for 60
bytes — the theorem applies, and the selected block evaluates to the
100-byte one, which the remaining registry no longer contains. -/
theorem best_fit_selects_smallest_witness :
    ((best_fit 60 [Block.mk 0 100, Block.mk 200 50, Block.mk 300 200]).1.fits 60 = true ∧
      (best_fit 60 [Block.mk 0 100, Block.mk 200 50, Block.mk 300 200]).1
        ∈ [Block.mk 0 100, Block.mk 200 50, Block.mk 300 200] ∧
      (∀ e ∈ [Block.mk 0 100, Block.mk 200 50, Block.mk 300 200], e.fits 60 = true →
        (best_fit 60 [Block.mk 0 100, Block.mk 200 50, Block.mk 300 200]).1.size ≤ e.size) ∧
      ∃ l1 l2, [Block.mk 0 100, Block.mk 200 50, Block.mk 300 200]
          = l1 ++ (best_fit 60 [Block.mk 0 100, Block.mk 200 50, Block.mk 300 200]).1 :: l2 ∧
        (best_fit 60 [Block.mk 0 100, Block.mk 200 50, Block.mk 300 200]).2 = l1 ++ l2) ∧
    (best_fit 60 [Block.mk 0 100, Block.mk 200 50, Block.mk 300 200]).1 = Block.mk 0 100 ∧
    (best_fit 60 [Block.mk 0 100, Block.mk 200 50, Block.mk 300 200]).2
      = [Block.mk 200 50, Block.mk 300 200] :=
  ⟨best_fit_selects_smallest [Block.mk 0 100, Block.mk 200 50, Block.mk 300 200] 60
      ⟨Block.mk 0 100, by decide, by decide⟩,
    by decide, by decide⟩

/-- C3: when no registry entry fits the requested size — in particular
on the empty registry — best_fit returns the default-constructed
sentinel block (null address, zero size) and returns the registry
unchanged, so its contents and size are untouched. -/
theorem best_fit_no_fit (l : List Block) (sz : Nat)
    (h : ∀ e ∈ l, e.fits sz = false) :
    best_fit sz l = ({ ptr := 0, size := 0 }, l) := by
  match l with
  | [] => rfl
  | x :: xs =>
    obtain ⟨_, _, h3⟩ := minIdxGo_spec sz xs 1 0 x
    have hidx : (x :: xs)[(minIdxGo sz 1 0 x xs).1]? = some (minIdxGo sz 1 0 x xs).2 := by
      rcases h3 with ⟨hb1, hb2⟩ | ⟨j, hj, hi⟩
      · rw [hb1, hb2]
        simp
      · rw [hi, show 1 + j = j + 1 from by omega]
        simpa using hj
    obtain ⟨l1, l2, hdec, _⟩ := get_erase_decomp (x :: xs) _ _ hidx
    have hmem : (minIdxGo sz 1 0 x xs).2 ∈ x :: xs := by
      rw [hdec]
      exact List.mem_append_right l1 (List.mem_cons_self _ _)
    have hnf : ¬ (minIdxGo sz 1 0 x xs).2.fits sz = true := by
      rw [h _ hmem]; simp
    simp only [best_fit]
    rw [if_neg hnf]

/-- C3 witness: a registry holding only a 5-byte block cannot satisfy a
10-byte request; the theorem applies and yields the sentinel with the
registry intact. -/
theorem best_fit_no_fit_witness :
    best_fit 10 [Block.mk 0 5] = ({ ptr := 0, size := 0 }, [Block.mk 0 5]) :=
  best_fit_no_fit [Block.mk 0 5] 10 (by decide)

/-! ### Claims about the Manager, the mode queries and the log entry points -/

theorem stringCopy_eq (dest : List Char) (count : Nat) (s : String) :
    stringCopy dest count s
      = s.toList.take (min count s.length) ++ dest.drop (min count s.length) := rfl

theorem toList_length (s : String) : s.toList.length = s.length := rfl

/-- C4: finalize empties the stream-registration set and clears the
logger (no records, no live pointers), while the configured options are
untouched and the resulting Manager state is still usable for a
subsequent initialize cycle, which then runs on the preserved options. -/
theorem finalize_frame (m : Manager) :
    (m.finalize).registered_streams = [] ∧
    (m.finalize).logger.events = [] ∧
    (m.finalize).logger.current_allocations = [] ∧
    (m.finalize).options = m.options ∧
    (rmmInit none m.finalize).1.options = m.options := by
  refine ⟨rfl, rfl, rfl, rfl, ?_⟩
  show (if usePoolAllocator m.finalize.options then _ else _ :
    Manager × Option (Nat × Bool)).1.options = m.options
  by_cases h : usePoolAllocator m.finalize.options = true
  · rw [if_pos h]
    rfl
  · rw [if_neg h]
    rfl

/-- C5 counterexample: with the allocation mode configured to
CudaDefaultAllocation (the empty mask), the default-allocator query of
the code returns true, while a bitmask comparison of that mode against
the corresponding flag CudaDefaultAllocation fails — so not all three
queries are bitmask comparisons. -/
theorem mode_query_counterexample :
    useCudaDefaultAllocator
      { allocation_mode := CudaDefaultAllocation, enable_logging := false,
        initial_pool_size := 0 } = true ∧
    bitmaskQuery CudaDefaultAllocation CudaDefaultAllocation = false := by
  constructor <;> rfl

/-- C5 (amended): the pool-allocation and managed-memory queries return
true exactly when the bitmask comparison of the configured mode against
their flag succeeds, while the default-allocator query returns true
exactly when the whole configured mode equals CudaDefaultAllocation (an
equality test, not a bitmask test). -/
theorem mode_queries (o : rmmOptions) :
    usePoolAllocator o = bitmaskQuery PoolAllocation o.allocation_mode ∧
    useManagedMemory o = bitmaskQuery CudaManagedMemory o.allocation_mode ∧
    (useCudaDefaultAllocator o = true ↔ o.allocation_mode = CudaDefaultAllocation) := by
  refine ⟨rfl, rfl, ?_⟩
  show (CudaDefaultAllocation == o.allocation_mode) = true ↔ _
  rw [beq_iff_eq]
  exact eq_comm

/-- C6: at a sink that cannot be opened (or written), rmmWriteLog still
returns RMM_SUCCESS: the ofstream's exception mask is never enabled, so
the failure only sets failbit, nothing raises std::ofstream::failure,
and the catch block mapping failures to the IO error status is dead. -/
theorem writeLog_swallows_failure (lg : Logger) (openOk writeOk : Bool) :
    rmmWriteLog lg openOk writeOk = rmmError.RMM_SUCCESS := by
  cases openOk <;> cases writeOk <;> rfl

/-- C7: the byte count that rmmLogSize reports equals the length of the
CSV text that rmmGetLog produces for the same log state — calling
rmmGetLog with that very byte count as the buffer size copies exactly
the whole CSV rendering into the buffer. -/
theorem log_size_matches_get_log (lg : Logger) (buffer : List Char) :
    rmmLogSize lg = (Logger.to_csv lg).length ∧
    (rmmGetLog lg buffer (rmmLogSize lg)).2
      = (Logger.to_csv lg).toList ++ buffer.drop (rmmLogSize lg) ∧
    ((Logger.to_csv lg).toList).length = rmmLogSize lg := by
  refine ⟨rfl, ?_, rfl⟩
  rw [show (rmmGetLog lg buffer (rmmLogSize lg)).2
    = stringCopy buffer (min (rmmLogSize lg) (Logger.to_csv lg).length) (Logger.to_csv lg)
    from rfl]
  rw [stringCopy_eq]
  have h1 : min (min (rmmLogSize lg) (Logger.to_csv lg).length) (Logger.to_csv lg).length
      = rmmLogSize lg := by
    unfold rmmLogSize
    omega
  rw [h1]
  have h2 : (Logger.to_csv lg).toList.take (rmmLogSize lg) = (Logger.to_csv lg).toList := by
    rw [show rmmLogSize lg = (Logger.to_csv lg).toList.length from rfl]
    exact List.take_length _
  rw [h2]

/-- C9: initializing with a null options pointer leaves the stored
options untouched and still performs the mode-dependent initialization
from the previously stored options (invoking cnmemInit with the stored
pool size and managed flag exactly when they enable the pool allocator),
whereas a non-null pointer overwrites the stored options. -/
theorem init_null_options_frame (m : Manager) :
    (rmmInit none m).1.options = m.options ∧
    (rmmInit none m).2 = (if usePoolAllocator m.options
      then some (m.options.initial_pool_size, useManagedMemory m.options)
      else none) ∧
    (∀ o : rmmOptions, (rmmInit (some o) m).1.options = o) := by
  refine ⟨?_, ?_, fun o => ?_⟩
  · show (if usePoolAllocator m.options then _ else _ :
      Manager × Option (Nat × Bool)).1.options = m.options
    by_cases h : usePoolAllocator m.options = true
    · rw [if_pos h]
    · rw [if_neg h]
  · show (if usePoolAllocator m.options then _ else _ :
      Manager × Option (Nat × Bool)).2 = _
    by_cases h : usePoolAllocator m.options = true
    · rw [if_pos h, if_pos h]
    · rw [if_neg h, if_neg h]
  · show (if usePoolAllocator o then _ else _ :
      Manager × Option (Nat × Bool)).1.options = o
    by_cases h : usePoolAllocator o = true
    · rw [if_pos h]
    · rw [if_neg h]

/-- C10: for every buffer size and log state, rmmGetLog overwrites
exactly min(buffer_size, CSV length) leading characters of the caller's
buffer with the CSV prefix — never more than buffer_size — and appends
no null terminator: past the copied prefix the buffer's previous
contents survive unchanged. -/
theorem get_log_copy_bound (lg : Logger) (buffer : List Char) (buffer_size : Nat) :
    (rmmGetLog lg buffer buffer_size).2
      = (Logger.to_csv lg).toList.take (min buffer_size (Logger.to_csv lg).length)
        ++ buffer.drop (min buffer_size (Logger.to_csv lg).length) ∧
    min buffer_size (Logger.to_csv lg).length ≤ buffer_size ∧
    (rmmGetLog lg buffer buffer_size).2.drop (min buffer_size (Logger.to_csv lg).length)
      = buffer.drop (min buffer_size (Logger.to_csv lg).length) := by
  have hred : (rmmGetLog lg buffer buffer_size).2
      = (Logger.to_csv lg).toList.take (min buffer_size (Logger.to_csv lg).length)
        ++ buffer.drop (min buffer_size (Logger.to_csv lg).length) := by
    rw [show (rmmGetLog lg buffer buffer_size).2
      = stringCopy buffer (min buffer_size (Logger.to_csv lg).length) (Logger.to_csv lg)
      from rfl]
    rw [stringCopy_eq]
    have hmm : min (min buffer_size (Logger.to_csv lg).length) (Logger.to_csv lg).length
        = min buffer_size (Logger.to_csv lg).length := by omega
    rw [hmm]
  have hlen : ((Logger.to_csv lg).toList.take
      (min buffer_size (Logger.to_csv lg).length)).length
      = min buffer_size (Logger.to_csv lg).length := by
    rw [List.length_take, toList_length]
    omega
  refine ⟨hred, Nat.min_le_left _ _, ?_⟩
  rw [hred]
  rw [List.drop_append_of_le_length (le_of_eq hlen.symm)]
  rw [List.drop_eq_nil_of_le (le_of_eq hlen)]
  rw [List.nil_append]
